import Mathlib

/- Shallow embedding of the resumable batch extraction engine of the
berg-nih pipeline: the progress ledger (scripts/progress_tracker.py), the
batch merger (scripts/merge_batch_files.py), the rate-limited transcript
executor (scripts/transcript_extractor.py), the human-like batch processor
(scripts/transcript_extractor_human_batch.py) and the VPN batch
orchestrator (scripts/vpn_batch_orchestrator.py).  Python dicts are
modelled as insertion-ordered association lists, wall-clock timestamps as
caller-supplied abstract values, floats as rationals, and the remote
transcript service as an oracle function passed in as a parameter. -/

/- ===== Progress ledger: scripts/progress_tracker.py ===== -/

/-- Record stored under a video id in `progress_data['processed_videos']`
(progress_tracker.py, `mark_video_processed`).  `processed_at` timestamps
are abstract caller-supplied values; `extra` holds the optional
`additional_data` fields merged into the record. -/
structure ProcessedRecord where
  catalog_index : Nat
  processed_at : Nat
  batch_file : String
  status : String
  extra : List (String × String)
deriving DecidableEq

/-- Fields of `progress_data['master_progress']` that `mark_video_processed`
maintains (the static catalog counters are omitted).  `last_processed_index`
is an `Int` because it is initialised to `-1`. -/
structure MasterProgress where
  videos_processed : Nat
  last_updated : Nat
  last_processed_index : Int
deriving DecidableEq

/-- In-memory state `self.progress_data`: the master summary plus the
`processed_videos` dict keyed by video id, modelled as an insertion-ordered
association list. -/
structure ProgressData where
  master_progress : MasterProgress
  processed_videos : List (String × ProcessedRecord)
deriving DecidableEq

/-- Assignment `d[k] = v` on a Python dict: replaces the value in place when
the key is already present (keeping its position), otherwise appends. -/
def dictInsert (k : String) (v : ProcessedRecord) :
    List (String × ProcessedRecord) → List (String × ProcessedRecord)
  | [] => [(k, v)]
  | (k', v') :: rest =>
      if k' = k then (k, v) :: rest else (k', v') :: dictInsert k v rest

/-- Python `max` over a list of naturals (`0` on the empty list, which the
source never evaluates). -/
def maxNatList : List Nat → Nat
  | [] => 0
  | x :: xs => xs.foldl max x

/-- Python `min` over a list of naturals (`0` on the empty list, which the
source never evaluates). -/
def minNatList : List Nat → Nat
  | [] => 0
  | x :: xs => xs.foldl min x

/-- List comprehension
`[v['catalog_index'] for v in progress_data['processed_videos'].values()]`. -/
def processedIndices (pd : ProgressData) : List Nat :=
  pd.processed_videos.map (fun kv => kv.2.catalog_index)

/-- Loop `for i in range(max_processed + 1): if i not in all_processed:
return i` from `get_next_resume_index`: the first element of the scanned
position list that is missing from `allProcessed`, if any. -/
def firstMissing (allProcessed : List Nat) : List Nat → Option Nat
  | [] => none
  | i :: is => if i ∈ allProcessed then firstMissing allProcessed is else some i

/-- `ProgressTracker.get_next_resume_index` (progress_tracker.py lines
145-163). -/
def get_next_resume_index (pd : ProgressData) : Nat :=
  let processed_indices := processedIndices pd
  if processed_indices = [] then 0
  else
    let max_processed := maxNatList processed_indices
    match firstMissing processed_indices (List.range (max_processed + 1)) with
    | some i => i
    | none => max_processed + 1

/-- Ledger state with one success record at each position of `l`, used to
instantiate the spec's concrete resume-index examples. -/
def ledgerWithPositions (l : List Nat) : ProgressData :=
  { master_progress :=
      { videos_processed := l.length, last_updated := 0, last_processed_index := 0 },
    processed_videos := l.map (fun i => (toString i, ⟨i, 0, "batch", "success", []⟩)) }

theorem le_foldl_max (l : List Nat) (a : Nat) : a ≤ l.foldl max a := by
  induction l generalizing a with
  | nil => exact Nat.le_refl a
  | cons b t ih =>
      exact Nat.le_trans (Nat.le_max_left a b) (ih (max a b))

theorem foldl_max_le_of_mem {l : List Nat} {x : Nat} (a : Nat) (h : x ∈ l) :
    x ≤ l.foldl max a := by
  induction l generalizing a with
  | nil => cases h
  | cons b t ih =>
      rcases List.mem_cons.mp h with rfl | hx
      · exact Nat.le_trans (Nat.le_max_right a x) (le_foldl_max t (max a x))
      · exact ih (max a b) hx

theorem le_maxNatList {l : List Nat} {x : Nat} (h : x ∈ l) : x ≤ maxNatList l := by
  cases l with
  | nil => cases h
  | cons b t =>
      rcases List.mem_cons.mp h with rfl | hx
      · exact le_foldl_max t x
      · exact foldl_max_le_of_mem b hx

theorem firstMissing_range'_some (l : List Nat) :
    ∀ (n s g : Nat), firstMissing l (List.range' s n) = some g →
      g ∉ l ∧ g < s + n ∧ ∀ j, s ≤ j → j < g → j ∈ l := by
  intro n
  induction n with
  | zero => intro s g h; simp [firstMissing] at h
  | succ m ih =>
      intro s g h
      rw [List.range'_succ] at h
      by_cases hs : s ∈ l
      · have h' : firstMissing l (List.range' (s + 1) m) = some g := by
          simpa [firstMissing, hs] using h
        obtain ⟨hg1, hg2, hg3⟩ := ih (s + 1) g h'
        refine ⟨hg1, by omega, ?_⟩
        intro j hj1 hj2
        rcases Nat.eq_or_lt_of_le hj1 with rfl | hj1'
        · exact hs
        · exact hg3 j hj1' hj2
      · have h' : g = s := by
          have := h
          simp [firstMissing, hs] at this
          omega
        subst h'
        exact ⟨hs, by omega, fun j hj1 hj2 => absurd (Nat.lt_of_le_of_lt hj1 hj2) (Nat.lt_irrefl g)⟩

theorem firstMissing_range'_none (l : List Nat) :
    ∀ (n s : Nat), firstMissing l (List.range' s n) = none →
      ∀ j, s ≤ j → j < s + n → j ∈ l := by
  intro n
  induction n with
  | zero => intro s _ j hj1 hj2; omega
  | succ m ih =>
      intro s h j hj1 hj2
      rw [List.range'_succ] at h
      by_cases hs : s ∈ l
      · have h' : firstMissing l (List.range' (s + 1) m) = none := by
          simpa [firstMissing, hs] using h
        rcases Nat.eq_or_lt_of_le hj1 with rfl | hj1'
        · exact hs
        · exact ih (s + 1) h' j hj1' (by omega)
      · simp [firstMissing, hs] at h

/-- C1: for every ledger state, `get_next_resume_index` returns `0` when no
positions are recorded; otherwise it returns the smallest position not
carrying a record (the first gap in `0..max`), or `max + 1` when no gap
exists.  This is captured by: the returned position carries no record, every
smaller position does, and the result never exceeds `max + 1`; the spec's
concrete examples `{0,1,2,4,5} ↦ 3`, `{0,1,2,3} ↦ 4` and `{} ↦ 0` are
included as final conjuncts. -/
theorem C1_next_resume_index (pd : ProgressData) :
    get_next_resume_index pd ∉ processedIndices pd ∧
    (∀ j, j < get_next_resume_index pd → j ∈ processedIndices pd) ∧
    get_next_resume_index pd ≤ maxNatList (processedIndices pd) + 1 ∧
    (processedIndices pd = [] → get_next_resume_index pd = 0) ∧
    get_next_resume_index (ledgerWithPositions [0, 1, 2, 4, 5]) = 3 ∧
    get_next_resume_index (ledgerWithPositions [0, 1, 2, 3]) = 4 ∧
    get_next_resume_index (ledgerWithPositions []) = 0 := by
  refine ⟨?_, ?_, ?_, ?_, by decide, by decide, by decide⟩
  all_goals (
    simp only [get_next_resume_index]
    by_cases hemp : processedIndices pd = [])
  · simp [hemp]
  · simp only [if_neg hemp]
    cases hfm : firstMissing (processedIndices pd)
        (List.range (maxNatList (processedIndices pd) + 1)) with
    | some g =>
        dsimp only
        rw [List.range_eq_range'] at hfm
        exact (firstMissing_range'_some _ _ _ _ hfm).1
    | none =>
        dsimp only
        intro hmem
        exact absurd (le_maxNatList hmem) (by omega)
  · intro j hj; rw [hemp] at hj; simp [hemp] at hj
  · simp only [if_neg hemp]
    cases hfm : firstMissing (processedIndices pd)
        (List.range (maxNatList (processedIndices pd) + 1)) with
    | some g =>
        dsimp only
        rw [List.range_eq_range'] at hfm
        intro j hj
        exact (firstMissing_range'_some _ _ _ _ hfm).2.2 j (Nat.zero_le j) hj
    | none =>
        dsimp only
        rw [List.range_eq_range'] at hfm
        intro j hj
        exact firstMissing_range'_none _ _ _ hfm j (Nat.zero_le j) (by omega)
  · simp [hemp]
  · simp only [if_neg hemp]
    cases hfm : firstMissing (processedIndices pd)
        (List.range (maxNatList (processedIndices pd) + 1)) with
    | some g =>
        dsimp only
        rw [List.range_eq_range'] at hfm
        have := (firstMissing_range'_some _ _ _ _ hfm).2.1
        omega
    | none => exact Nat.le_refl _
  · simp [hemp]
  · intro h; exact absurd h hemp

/-- Closed instantiation of `C1_next_resume_index` at the ledger with
records at positions `{0,1,2,4,5}`. -/
theorem C1_next_resume_index_witness :
    get_next_resume_index (ledgerWithPositions [0, 1, 2, 4, 5]) ∉
      processedIndices (ledgerWithPositions [0, 1, 2, 4, 5]) ∧
    (∀ j, j < get_next_resume_index (ledgerWithPositions [0, 1, 2, 4, 5]) →
      j ∈ processedIndices (ledgerWithPositions [0, 1, 2, 4, 5])) ∧
    get_next_resume_index (ledgerWithPositions [0, 1, 2, 4, 5]) ≤
      maxNatList (processedIndices (ledgerWithPositions [0, 1, 2, 4, 5])) + 1 ∧
    (processedIndices (ledgerWithPositions [0, 1, 2, 4, 5]) = [] →
      get_next_resume_index (ledgerWithPositions [0, 1, 2, 4, 5]) = 0) ∧
    get_next_resume_index (ledgerWithPositions [0, 1, 2, 4, 5]) = 3 ∧
    get_next_resume_index (ledgerWithPositions [0, 1, 2, 3]) = 4 ∧
    get_next_resume_index (ledgerWithPositions []) = 0 :=
  C1_next_resume_index (ledgerWithPositions [0, 1, 2, 4, 5])

/-- Fresh progress state built by `_load_progress` when no progress file
exists: zero counters, `last_processed_index = -1`, empty dict. -/
def initialProgress : ProgressData :=
  { master_progress :=
      { videos_processed := 0, last_updated := 0, last_processed_index := -1 },
    processed_videos := [] }

/-- `ProgressTracker.mark_video_processed` (progress_tracker.py lines
169-187).  `now` stands for `datetime.now().isoformat()`.  The optional
`additional_data` dict is merged into the freshly created record; its keys
are disjoint from the four fixed fields at every call site, so the merge is
modelled by the `extra` field. -/
def mark_video_processed (pd : ProgressData) (video_id : String)
    (catalog_index : Nat) (batch_file : String) (now : Nat)
    (additional_data : Option (List (String × String))) : ProgressData :=
  let record : ProcessedRecord :=
    { catalog_index := catalog_index, processed_at := now,
      batch_file := batch_file, status := "success",
      extra := additional_data.getD [] }
  let pv := dictInsert video_id record pd.processed_videos
  { master_progress :=
      { videos_processed := pv.length,
        last_updated := now,
        last_processed_index :=
          Int.ofNat (maxNatList (pv.map (fun kv => kv.2.catalog_index))) },
    processed_videos := pv }

theorem dictInsert_lookup (k : String) (v : ProcessedRecord)
    (l : List (String × ProcessedRecord)) :
    (dictInsert k v l).lookup k = some v := by
  induction l with
  | nil => simp [dictInsert, List.lookup]
  | cons p t ih =>
      obtain ⟨k', v'⟩ := p
      by_cases hk : k' = k
      · simp [dictInsert, hk, List.lookup]
      · have hbe : (k == k') = false := by
          simp [Ne.symm hk]
        simp [dictInsert, hk, List.lookup, hbe, ih]

theorem dictInsert_keys (k : String) (v : ProcessedRecord)
    (l : List (String × ProcessedRecord)) :
    (dictInsert k v l).map Prod.fst =
      if k ∈ l.map Prod.fst then l.map Prod.fst else l.map Prod.fst ++ [k] := by
  induction l with
  | nil => simp [dictInsert]
  | cons p t ih =>
      obtain ⟨k', v'⟩ := p
      by_cases hk : k' = k
      · subst hk; simp [dictInsert]
      · by_cases hm : k ∈ t.map Prod.fst
        · simp [dictInsert, hk, ih, hm, Ne.symm hk]
        · simp [dictInsert, hk, ih, hm, Ne.symm hk]

theorem dictInsert_keys_nodup {l : List (String × ProcessedRecord)}
    (k : String) (v : ProcessedRecord) (h : (l.map Prod.fst).Nodup) :
    ((dictInsert k v l).map Prod.fst).Nodup := by
  rw [dictInsert_keys]
  by_cases hm : k ∈ l.map Prod.fst
  · simp only [if_pos hm]; exact h
  · simp only [if_neg hm]
    refine List.nodup_append.mpr ⟨h, List.nodup_singleton k, ?_⟩
    intro a ha hb
    simp at hb
    subst hb
    exact hm ha

theorem dictInsert_mem_keys (k : String) (v : ProcessedRecord)
    (l : List (String × ProcessedRecord)) :
    k ∈ (dictInsert k v l).map Prod.fst := by
  rw [dictInsert_keys]
  by_cases hm : k ∈ l.map Prod.fst
  · simp only [if_pos hm]; exact hm
  · simp [hm]

/-- C2 fails on the code: `mark_video_processed` performs no duplicate check
and returns nothing.  Marking video "v" (catalog index 5) and then marking
"v" again (catalog index 7) changes the ledger, whereas the claim requires
the second call with an already-present item id to leave it unchanged: the
record for "v" now carries catalog index 7 and the new timestamp. -/
theorem C2_counterexample :
    mark_video_processed (mark_video_processed initialProgress "v" 5 "b1" 0 none)
        "v" 7 "b2" 1 none ≠
      mark_video_processed initialProgress "v" 5 "b1" 0 none ∧
    (mark_video_processed (mark_video_processed initialProgress "v" 5 "b1" 0 none)
        "v" 7 "b2" 1 none).processed_videos =
      [("v", ⟨7, 1, "b2", "success", []⟩)] := by
  constructor
  · intro h
    have := congrArg (fun pd => pd.processed_videos) h
    simp [mark_video_processed, initialProgress, dictInsert] at this
  · rfl

/-- C2 amended: `mark_video_processed` called with an item id already in the
ledger does not reject the write; it overwrites that id's record in place
(last write wins).  The key set is unchanged by the second call, so the
invariant of at most one record per item id is preserved (keys stay
`Nodup`), and the stored record is the one from the second call. -/
theorem C2_mark_video_processed_overwrites (pd : ProgressData) (id : String)
    (c₁ c₂ t₁ t₂ : Nat) (b₁ b₂ : String)
    (h : (pd.processed_videos.map Prod.fst).Nodup) :
    ((mark_video_processed (mark_video_processed pd id c₁ b₁ t₁ none)
        id c₂ b₂ t₂ none).processed_videos.lookup id =
      some ⟨c₂, t₂, b₂, "success", []⟩) ∧
    ((mark_video_processed (mark_video_processed pd id c₁ b₁ t₁ none)
        id c₂ b₂ t₂ none).processed_videos.map Prod.fst =
      (mark_video_processed pd id c₁ b₁ t₁ none).processed_videos.map Prod.fst) ∧
    ((mark_video_processed (mark_video_processed pd id c₁ b₁ t₁ none)
        id c₂ b₂ t₂ none).processed_videos.map Prod.fst).Nodup := by
  refine ⟨dictInsert_lookup _ _ _, ?_, ?_⟩
  · show (dictInsert id _ (dictInsert id _ pd.processed_videos)).map Prod.fst = _
    rw [dictInsert_keys, if_pos (dictInsert_mem_keys _ _ _)]
    rfl
  · exact dictInsert_keys_nodup _ _ (dictInsert_keys_nodup _ _ h)

/-- Closed instantiation of `C2_mark_video_processed_overwrites` at the
empty ledger. -/
theorem C2_mark_video_processed_overwrites_witness :
    ((mark_video_processed (mark_video_processed initialProgress "v" 5 "b1" 0 none)
        "v" 7 "b2" 1 none).processed_videos.lookup "v" =
      some ⟨7, 1, "b2", "success", []⟩) ∧
    ((mark_video_processed (mark_video_processed initialProgress "v" 5 "b1" 0 none)
        "v" 7 "b2" 1 none).processed_videos.map Prod.fst =
      (mark_video_processed initialProgress "v" 5 "b1" 0 none).processed_videos.map Prod.fst) ∧
    ((mark_video_processed (mark_video_processed initialProgress "v" 5 "b1" 0 none)
        "v" 7 "b2" 1 none).processed_videos.map Prod.fst).Nodup :=
  C2_mark_video_processed_overwrites initialProgress "v" 5 7 0 1 "b1" "b2"
    (by decide)

/- ===== Merge / reconciler: scripts/merge_batch_files.py ===== -/

/-- Video entry as read from a batch file.  Only `video_id` is relevant to
the merge logic: the `video_index` field is overwritten unconditionally
during collection (merge_batch_files.py line 52), so any pre-existing index
and the remaining payload fields are not modelled. -/
structure RawVideo where
  video_id : String
deriving DecidableEq

/-- Video entry carried through the merge after `video['video_index']` has
been assigned. -/
structure MVideo where
  video_id : String
  video_index : Nat
deriving DecidableEq

/-- Loop `for i, video in enumerate(videos): video['video_index'] =
len(all_videos) + i; all_videos.append(video)` (merge_batch_files.py lines
50-53).  `len(all_videos)` is evaluated inside the loop, after the appends
of the previous iterations, so the `j`-th video (0-based) of a batch that
starts at accumulated length `P` receives index `(P + j) + j = P + 2*j`. -/
def collectBatchAux (all_videos : List MVideo) (i : Nat) :
    List RawVideo → List MVideo
  | [] => all_videos
  | v :: vs =>
      collectBatchAux
        (all_videos ++ [{ video_id := v.video_id,
                          video_index := all_videos.length + i }])
        (i + 1) vs

/-- Collection of one batch file's video list, with the enumeration counter
starting at `0` (merge_batch_files.py lines 48-54). -/
def collectBatch (all_videos : List MVideo) (videos : List RawVideo) : List MVideo :=
  collectBatchAux all_videos 0 videos

/-- Collection of every video of every readable batch file in discovery
order (merge_batch_files.py lines 29-58). -/
def collectVideos (batches : List (List RawVideo)) : List MVideo :=
  batches.foldl collectBatch []

/-- Deduplication loop `for video in all_videos: if idx not in seen_indices:
unique_videos.append(video); seen_indices.add(idx)` (merge_batch_files.py
lines 85-91): keeps the first video seen for each `video_index`. -/
def dedupByIndex (seen : List Nat) : List MVideo → List MVideo
  | [] => []
  | v :: vs =>
      if v.video_index ∈ seen then dedupByIndex seen vs
      else v :: dedupByIndex (v.video_index :: seen) vs

/-- Summary `merge_metadata` of the merged output (merge_batch_files.py
lines 104-115).  The `merged_at` wall-clock timestamp and the
`batch_sources` metadata list are omitted. -/
structure MergeMetadata where
  source_files : Nat
  total_videos : Nat
  index_min : Nat
  index_max : Nat
  next_resume_index : Nat
  duplicates_removed : Nat
  missing_indices : List Nat
deriving DecidableEq

/-- Merged output structure written to `berg_merged_complete.json`. -/
structure MergedData where
  merge_metadata : MergeMetadata
  videos : List MVideo
deriving DecidableEq

/-- Sort key `lambda x: x.get('video_index', 0)` of the `all_videos.sort`
call (merge_batch_files.py line 66).  Every collected video carries an
index, so the `0` default never fires. -/
def leIdx (a b : MVideo) : Prop := a.video_index ≤ b.video_index

instance : DecidableRel leIdx := fun a b => Nat.decLe a.video_index b.video_index

/-- Analysis and output assembly over the collected video list
(merge_batch_files.py lines 64-118): sort by `video_index` (Python's stable
sort, modelled by insertion sort), count duplicate indices, deduplicate only
when duplicates exist, compute `sorted(set(range(min, max + 1)) -
unique_indices)` as the missing-index list, and report
`next_resume_index = max(indices) + 1`. -/
def mergeAnalyze (source_files : Nat) (all_videos0 : List MVideo) : MergedData :=
  let all_videos := all_videos0.insertionSort leIdx
  let indices := all_videos.map (fun v => v.video_index)
  let unique_indices := indices.dedup
  let duplicates := indices.length - unique_indices.length
  let deduped := if duplicates > 0 then dedupByIndex [] all_videos else all_videos
  let imin := minNatList indices
  let imax := maxNatList indices
  let missing_indices :=
    (List.range' imin (imax + 1 - imin)).filter (fun i => !(decide (i ∈ unique_indices)))
  { merge_metadata :=
      { source_files := source_files,
        total_videos := deduped.length,
        index_min := imin,
        index_max := imax,
        next_resume_index := imax + 1,
        duplicates_removed := duplicates,
        missing_indices := missing_indices },
    videos := deduped }

/-- `merge_batch_files` (merge_batch_files.py lines 14-130).  File discovery
and I/O are abstracted into the `batches` argument, one entry per readable
batch file in discovery order; `none` models the early `return None` taken
when no batch files were found or no videos were collected. -/
def merge_batch_files (batches : List (List RawVideo)) : Option MergedData :=
  if batches = [] then none
  else
    let all_videos := collectVideos batches
    if all_videos = [] then none
    else some (mergeAnalyze batches.length all_videos)

theorem foldl_min_le_init (l : List Nat) (a : Nat) : l.foldl min a ≤ a := by
  induction l generalizing a with
  | nil => exact Nat.le_refl a
  | cons b t ih =>
      exact Nat.le_trans (ih (min a b)) (Nat.min_le_left a b)

theorem foldl_min_le_of_mem {l : List Nat} {x : Nat} (a : Nat) (h : x ∈ l) :
    l.foldl min a ≤ x := by
  induction l generalizing a with
  | nil => cases h
  | cons b t ih =>
      rcases List.mem_cons.mp h with rfl | hx
      · exact Nat.le_trans (foldl_min_le_init t (min a x)) (Nat.min_le_right a x)
      · exact ih (min a b) hx

theorem minNatList_le {l : List Nat} {x : Nat} (h : x ∈ l) : minNatList l ≤ x := by
  cases l with
  | nil => cases h
  | cons b t =>
      rcases List.mem_cons.mp h with rfl | hx
      · exact foldl_min_le_init t x
      · exact foldl_min_le_of_mem b hx

theorem foldl_max_mem (l : List Nat) (a : Nat) :
    l.foldl max a = a ∨ l.foldl max a ∈ l := by
  induction l generalizing a with
  | nil => exact Or.inl rfl
  | cons b t ih =>
      rcases ih (max a b) with h | h
      · rcases max_choice a b with hab | hab
        · exact Or.inl (by rw [List.foldl_cons, h, hab])
        · exact Or.inr (by rw [List.foldl_cons, h, hab]; exact List.mem_cons_self b t)
      · exact Or.inr (List.mem_cons_of_mem b h)

theorem maxNatList_mem {l : List Nat} (h : l ≠ []) : maxNatList l ∈ l := by
  cases l with
  | nil => exact absurd rfl h
  | cons b t =>
      rcases foldl_max_mem t b with h' | h'
      · have hb : maxNatList (b :: t) = b := h'
        rw [hb]; exact List.mem_cons_self b t
      · exact List.mem_cons_of_mem b h'

theorem foldl_min_mem (l : List Nat) (a : Nat) :
    l.foldl min a = a ∨ l.foldl min a ∈ l := by
  induction l generalizing a with
  | nil => exact Or.inl rfl
  | cons b t ih =>
      rcases ih (min a b) with h | h
      · rcases min_choice a b with hab | hab
        · exact Or.inl (by rw [List.foldl_cons, h, hab])
        · exact Or.inr (by rw [List.foldl_cons, h, hab]; exact List.mem_cons_self b t)
      · exact Or.inr (List.mem_cons_of_mem b h)

theorem minNatList_mem {l : List Nat} (h : l ≠ []) : minNatList l ∈ l := by
  cases l with
  | nil => exact absurd rfl h
  | cons b t =>
      rcases foldl_min_mem t b with h' | h'
      · have hb : minNatList (b :: t) = b := h'
        rw [hb]; exact List.mem_cons_self b t
      · exact List.mem_cons_of_mem b h'

theorem maxNatList_perm {l₁ l₂ : List Nat} (h : l₁.Perm l₂) (hne : l₁ ≠ []) :
    maxNatList l₁ = maxNatList l₂ := by
  have hne₂ : l₂ ≠ [] := by
    intro h2; rw [h2] at h; exact hne (List.Perm.eq_nil h)
  have h₁ := le_maxNatList (h.mem_iff.mp (maxNatList_mem hne))
  have h₂ := le_maxNatList (h.mem_iff.mpr (maxNatList_mem hne₂))
  omega

theorem minNatList_perm {l₁ l₂ : List Nat} (h : l₁.Perm l₂) (hne : l₁ ≠ []) :
    minNatList l₁ = minNatList l₂ := by
  have hne₂ : l₂ ≠ [] := by
    intro h2; rw [h2] at h; exact hne (List.Perm.eq_nil h)
  have h₁ := minNatList_le (h.mem_iff.mpr (minNatList_mem hne₂))
  have h₂ := minNatList_le (h.mem_iff.mp (minNatList_mem hne))
  omega

theorem minNatList_le_maxNatList {l : List Nat} (h : l ≠ []) :
    minNatList l ≤ maxNatList l :=
  Nat.le_trans (minNatList_le (maxNatList_mem h)) (Nat.le_refl _)

/-- Index list the collection loop actually produces: each batch of length
`m` starting at accumulated length `P` contributes the stride-2 indices
`P, P+2, ..., P+2*(m-1)` (`List.range' P m 2`), and the next batch starts
at `P + m`. -/
def assignedIndices : Nat → List (List RawVideo) → List Nat
  | _, [] => []
  | P, vs :: bs => List.range' P vs.length 2 ++ assignedIndices (P + vs.length) bs

theorem collectBatchAux_map_id :
    ∀ (vs : List RawVideo) (acc : List MVideo) (i : Nat),
      (collectBatchAux acc i vs).map (fun v => v.video_id) =
        acc.map (fun v => v.video_id) ++ vs.map (fun v => v.video_id) := by
  intro vs
  induction vs with
  | nil => intro acc i; simp [collectBatchAux]
  | cons v vs ih =>
      intro acc i
      simp only [collectBatchAux]
      rw [ih]
      simp

theorem collectBatchAux_length :
    ∀ (vs : List RawVideo) (acc : List MVideo) (i : Nat),
      (collectBatchAux acc i vs).length = acc.length + vs.length := by
  intro vs
  induction vs with
  | nil => intro acc i; simp [collectBatchAux]
  | cons v vs ih =>
      intro acc i
      simp only [collectBatchAux]
      rw [ih]
      simp only [List.length_append, List.length_cons, List.length_nil]
      omega

theorem collectBatchAux_map_index :
    ∀ (vs : List RawVideo) (acc : List MVideo) (i : Nat),
      (collectBatchAux acc i vs).map (fun v => v.video_index) =
        acc.map (fun v => v.video_index) ++
          List.range' (acc.length + i) vs.length 2 := by
  intro vs
  induction vs with
  | nil => intro acc i; simp [collectBatchAux]
  | cons v vs ih =>
      intro acc i
      simp only [collectBatchAux]
      rw [ih]
      have h2 : ∀ e : MVideo, (acc ++ [e]).length + (i + 1) =
          acc.length + i + 2 := by
        intro e
        simp only [List.length_append, List.length_cons, List.length_nil]
        omega
      rw [h2]
      simp only [List.length_cons, List.range'_succ, List.map_append,
        List.map_cons, List.map_nil, List.append_assoc, List.cons_append,
        List.nil_append]

theorem collectBatch_map_id (acc : List MVideo) (vs : List RawVideo) :
    (collectBatch acc vs).map (fun v => v.video_id) =
      acc.map (fun v => v.video_id) ++ vs.map (fun v => v.video_id) :=
  collectBatchAux_map_id vs acc 0

theorem collectBatch_map_index (acc : List MVideo) (vs : List RawVideo) :
    (collectBatch acc vs).map (fun v => v.video_index) =
      acc.map (fun v => v.video_index) ++ List.range' acc.length vs.length 2 := by
  have h := collectBatchAux_map_index vs acc 0
  simpa [collectBatch] using h

theorem collectBatch_length (acc : List MVideo) (vs : List RawVideo) :
    (collectBatch acc vs).length = acc.length + vs.length :=
  collectBatchAux_length vs acc 0

theorem collectVideos_fold (bs : List (List RawVideo)) :
    ∀ acc : List MVideo,
      (bs.foldl collectBatch acc).map (fun v => v.video_id) =
        acc.map (fun v => v.video_id) ++ bs.flatten.map (fun v => v.video_id) ∧
      (bs.foldl collectBatch acc).map (fun v => v.video_index) =
        acc.map (fun v => v.video_index) ++ assignedIndices acc.length bs ∧
      (bs.foldl collectBatch acc).length = acc.length + bs.flatten.length := by
  induction bs with
  | nil => intro acc; simp [assignedIndices]
  | cons vs bs ih =>
      intro acc
      obtain ⟨h1, h2, h3⟩ := ih (collectBatch acc vs)
      have hfold : (vs :: bs).foldl collectBatch acc =
          bs.foldl collectBatch (collectBatch acc vs) := rfl
      refine ⟨?_, ?_, ?_⟩
      · rw [hfold, h1, collectBatch_map_id]
        simp
      · rw [hfold, h2, collectBatch_map_index, collectBatch_length]
        simp [assignedIndices]
      · rw [hfold, h3, collectBatch_length]
        simp only [List.flatten_cons, List.length_append]
        omega

theorem collectVideos_map_id (bs : List (List RawVideo)) :
    (collectVideos bs).map (fun v => v.video_id) =
      bs.flatten.map (fun v => v.video_id) := by
  have h := (collectVideos_fold bs []).1
  simpa [collectVideos] using h

theorem collectVideos_map_index (bs : List (List RawVideo)) :
    (collectVideos bs).map (fun v => v.video_index) = assignedIndices 0 bs := by
  have h := (collectVideos_fold bs []).2.1
  simpa [collectVideos] using h

theorem collectVideos_length (bs : List (List RawVideo)) :
    (collectVideos bs).length = bs.flatten.length := by
  have h := (collectVideos_fold bs []).2.2
  simpa [collectVideos] using h

theorem merge_batch_files_some (bs : List (List RawVideo)) (md : MergedData)
    (h : merge_batch_files bs = some md) :
    md = mergeAnalyze bs.length (collectVideos bs) := by
  unfold merge_batch_files at h
  by_cases hb : bs = []
  · rw [if_pos hb] at h; cases h
  · rw [if_neg hb] at h
    by_cases hv : collectVideos bs = []
    · simp only [hv, if_pos rfl] at h
      cases h
    · simp only [if_neg hv, Option.some.injEq] at h
      exact h.symm

/-- C10 fails on the code: `len(all_videos)` in merge_batch_files.py line
52 is evaluated inside the loop, after the previous appends, so a single
three-video batch already yields indices `[0, 2, 4]` — not `0..n-1` — with
`missing_indices = [1, 3]` (not empty) and `next_resume_index = 5` (not the
collected count `3`); and batch sizes `[2, 1]` produce the colliding index
`2`, so `duplicates_removed = 1`, not `0`. -/
theorem C10_counterexample :
    (merge_batch_files
        [[{ video_id := "a" }, { video_id := "b" }, { video_id := "c" }]]).map
        (fun md => (md.videos.map (fun v => v.video_index),
          md.merge_metadata.missing_indices,
          md.merge_metadata.next_resume_index,
          md.merge_metadata.duplicates_removed)) =
      some ([0, 2, 4], [1, 3], 5, 0) ∧
    ([0, 2, 4] : List Nat) ≠ List.range 3 ∧
    (5 : Nat) ≠ 3 ∧
    (merge_batch_files
        [[{ video_id := "a" }, { video_id := "b" }], [{ video_id := "c" }]]).map
        (fun md => md.merge_metadata.duplicates_removed) = some 1 := by
  decide

/-- C10 amended: the collection loop evaluates `len(all_videos)` after each
append, so the `j`-th video (0-based) of a batch starting at accumulated
length `P` gets `video_index = P + 2*j` — a stride-2 sequence, not its
running position in the concatenated list.  One record is still collected
per input video, with ids in concatenation order, but the merged indices
are in general neither `0..n-1` nor duplicate-free: one three-video source
yields indices `[0, 2, 4]` with `missing_indices = [1, 3]` and
`next_resume_index = 5`, and sizes `[2, 1]` collide on index `2`, so
`duplicates_removed = 1`. -/
theorem C10_merge_gapped_indices (batches : List (List RawVideo)) :
    (collectVideos batches).map (fun v => v.video_index) =
      assignedIndices 0 batches ∧
    (collectVideos batches).map (fun v => v.video_id) =
      batches.flatten.map (fun v => v.video_id) ∧
    (collectVideos batches).length = batches.flatten.length ∧
    (merge_batch_files
        [[{ video_id := "a" }, { video_id := "b" }, { video_id := "c" }]]).map
        (fun md => (md.videos.map (fun v => v.video_index),
          md.merge_metadata.missing_indices,
          md.merge_metadata.next_resume_index)) = some ([0, 2, 4], [1, 3], 5) ∧
    (merge_batch_files
        [[{ video_id := "a" }, { video_id := "b" }], [{ video_id := "c" }]]).map
        (fun md => md.merge_metadata.duplicates_removed) = some 1 :=
  ⟨collectVideos_map_index batches, collectVideos_map_id batches,
    collectVideos_length batches, by decide, by decide⟩

/-- C3 fails on the code: merging two batch sources that both contain item
id "X" yields TWO records for "X" in the merged output and reports zero
duplicates removed — the dedup step keys on the reassigned `video_index`
(here `0` and `1`, distinct), never on the item id. -/
theorem C3_counterexample :
    (merge_batch_files [[{ video_id := "X" }], [{ video_id := "X" }]]).map
        (fun md => (md.videos.countP (fun v => v.video_id == "X"),
          md.merge_metadata.duplicates_removed)) = some (2, 0) := by
  decide

theorem dedupByIndex_sublist :
    ∀ (l : List MVideo) (seen : List Nat), (dedupByIndex seen l).Sublist l := by
  intro l
  induction l with
  | nil => intro seen; simp [dedupByIndex]
  | cons v vs ih =>
      intro seen
      by_cases hv : v.video_index ∈ seen
      · simp only [dedupByIndex, if_pos hv]
        exact List.Sublist.cons v (ih seen)
      · simp only [dedupByIndex, if_neg hv]
        exact List.Sublist.cons₂ v (ih (v.video_index :: seen))

theorem dedupByIndex_not_seen :
    ∀ (l : List MVideo) (seen : List Nat) (v : MVideo),
      v ∈ dedupByIndex seen l → v.video_index ∉ seen := by
  intro l
  induction l with
  | nil => intro seen v hv; simp [dedupByIndex] at hv
  | cons w ws ih =>
      intro seen v hv
      by_cases hw : w.video_index ∈ seen
      · simp only [dedupByIndex, if_pos hw] at hv
        exact ih seen v hv
      · simp only [dedupByIndex, if_neg hw] at hv
        rcases List.mem_cons.mp hv with rfl | hv'
        · exact hw
        · intro hseen
          exact ih (w.video_index :: seen) v hv' (List.mem_cons_of_mem _ hseen)

theorem dedupByIndex_idx_nodup :
    ∀ (l : List MVideo) (seen : List Nat),
      ((dedupByIndex seen l).map (fun v => v.video_index)).Nodup := by
  intro l
  induction l with
  | nil => intro seen; simp [dedupByIndex]
  | cons w ws ih =>
      intro seen
      by_cases hw : w.video_index ∈ seen
      · simp only [dedupByIndex, if_pos hw]
        exact ih seen
      · simp only [dedupByIndex, if_neg hw, List.map_cons]
        refine List.nodup_cons.mpr ⟨?_, ih (w.video_index :: seen)⟩
        intro hmem
        obtain ⟨v, hv, hvidx⟩ := List.mem_map.mp hmem
        have hns := dedupByIndex_not_seen ws (w.video_index :: seen) v hv
        exact hns (by rw [hvidx]; exact List.mem_cons_self _ _)

theorem dedupByIndex_mem_idx :
    ∀ (l : List MVideo) (seen : List Nat) (i : Nat),
      (i ∈ (dedupByIndex seen l).map (fun v => v.video_index) ↔
        (i ∈ l.map (fun v => v.video_index) ∧ i ∉ seen)) := by
  intro l
  induction l with
  | nil => intro seen i; simp [dedupByIndex]
  | cons w ws ih =>
      intro seen i
      by_cases hw : w.video_index ∈ seen
      · simp only [dedupByIndex, if_pos hw, List.map_cons, List.mem_cons]
        rw [ih]
        constructor
        · rintro ⟨h1, h2⟩
          exact ⟨Or.inr h1, h2⟩
        · rintro ⟨h1 | h1, h2⟩
          · exact absurd (h1 ▸ hw) h2
          · exact ⟨h1, h2⟩
      · simp only [dedupByIndex, if_neg hw, List.map_cons, List.mem_cons]
        rw [ih]
        constructor
        · rintro (h1 | ⟨h1, h2⟩)
          · refine ⟨Or.inl h1, ?_⟩
            rw [h1]
            exact hw
          · exact ⟨Or.inr h1, fun hs => h2 (List.mem_cons_of_mem _ hs)⟩
        · rintro ⟨h1 | h1, h2⟩
          · exact Or.inl h1
          · by_cases hiw : i = w.video_index
            · exact Or.inl hiw
            · refine Or.inr ⟨h1, ?_⟩
              intro hmem
              rcases List.mem_cons.mp hmem with h | h
              · exact hiw h
              · exact h2 h

theorem dedupByIndex_first :
    ∀ (l : List MVideo) (seen : List Nat) (v : MVideo),
      v ∈ dedupByIndex seen l →
      l.find? (fun w => w.video_index == v.video_index) = some v := by
  intro l
  induction l with
  | nil => intro seen v hv; simp [dedupByIndex] at hv
  | cons w ws ih =>
      intro seen v hv
      by_cases hw : w.video_index ∈ seen
      · simp only [dedupByIndex, if_pos hw] at hv
        have hns := dedupByIndex_not_seen ws seen v hv
        have hne : ¬ ((w.video_index == v.video_index) = true) := by
          simp only [beq_iff_eq]
          intro heq
          exact hns (heq ▸ hw)
        rw [List.find?_cons_of_neg ws hne]
        exact ih seen v hv
      · simp only [dedupByIndex, if_neg hw] at hv
        rcases List.mem_cons.mp hv with rfl | hv'
        · exact List.find?_cons_of_pos ws (by simp)
        · have hns := dedupByIndex_not_seen ws (w.video_index :: seen) v hv'
          have hne : ¬ ((w.video_index == v.video_index) = true) := by
            simp only [beq_iff_eq]
            intro heq
            exact hns (by rw [← heq]; exact List.mem_cons_self _ _)
          rw [List.find?_cons_of_neg ws hne]
          exact ih (w.video_index :: seen) v hv'

theorem dedupByIndex_length (l : List MVideo) :
    (dedupByIndex [] l).length =
      ((l.map (fun v => v.video_index)).dedup).length := by
  have h1 : ((dedupByIndex [] l).map (fun v => v.video_index)).Nodup :=
    dedupByIndex_idx_nodup l []
  have h2 : ((l.map (fun v => v.video_index)).dedup).Nodup :=
    List.nodup_dedup _
  have hmem : ∀ i, i ∈ (dedupByIndex [] l).map (fun v => v.video_index) ↔
      i ∈ (l.map (fun v => v.video_index)).dedup := by
    intro i
    rw [List.mem_dedup, dedupByIndex_mem_idx]
    simp
  have hperm := (List.perm_ext_iff_of_nodup h1 h2).mpr hmem
  have hlen := hperm.length_eq
  simpa using hlen

theorem find?_self_of_idx_nodup :
    ∀ (l : List MVideo), ((l.map (fun v => v.video_index)).Nodup) →
      ∀ v ∈ l, l.find? (fun w => w.video_index == v.video_index) = some v := by
  intro l
  induction l with
  | nil => intro _ v hv; cases hv
  | cons w ws ih =>
      intro hnd v hv
      rw [List.map_cons, List.nodup_cons] at hnd
      obtain ⟨hw, hnd'⟩ := hnd
      rcases List.mem_cons.mp hv with rfl | hv'
      · exact List.find?_cons_of_pos ws (by simp)
      · have hne : ¬ ((w.video_index == v.video_index) = true) := by
          simp only [beq_iff_eq]
          intro heq
          exact hw (heq ▸ List.mem_map_of_mem (fun v => v.video_index) hv')
        rw [List.find?_cons_of_neg ws hne]
        exact ih hnd' v hv'

theorem idx_nodup_of_no_duplicates {xs : List Nat}
    (h : ¬ 0 < xs.length - xs.dedup.length) : xs.Nodup := by
  have hle : xs.dedup.length ≤ xs.length := (List.dedup_sublist xs).length_le
  have heq : xs.dedup.length = xs.length := by omega
  have hdd := (List.dedup_sublist xs).eq_of_length heq
  rw [← hdd]
  exact List.nodup_dedup xs

/-- C3 amended: the dedup step of `merge_batch_files` keys on the
reassigned `video_index`, never on the item id: the merged output is a
sublist of the stably sorted collected list holding, for each collected
index, exactly the first sorted record with that index, and the reported
`duplicates_removed` equals the number of records dropped.  Whether two
sources sharing an item id keep one or two records depends only on their
assigned indices; two singleton sources sharing item id "X" get distinct
indices, so both records for "X" are kept and `duplicates_removed = 0`. -/
theorem C3_merge_dedups_by_index (batches : List (List RawVideo))
    (md : MergedData) (h : merge_batch_files batches = some md) :
    (md.videos.map (fun v => v.video_index)).Nodup ∧
    (∀ i, i ∈ md.videos.map (fun v => v.video_index) ↔
      i ∈ (collectVideos batches).map (fun v => v.video_index)) ∧
    md.videos.Sublist ((collectVideos batches).insertionSort leIdx) ∧
    (∀ v ∈ md.videos,
      ((collectVideos batches).insertionSort leIdx).find?
        (fun w => w.video_index == v.video_index) = some v) ∧
    md.merge_metadata.duplicates_removed =
      batches.flatten.length - md.videos.length ∧
    (merge_batch_files [[{ video_id := "X" }], [{ video_id := "X" }]]).map
        (fun m => (m.videos.countP (fun v => v.video_id == "X"),
          m.merge_metadata.duplicates_removed)) = some (2, 0) := by
  obtain rfl := merge_batch_files_some batches md h
  have hperm : (((collectVideos batches).insertionSort leIdx).map
      (fun v => v.video_index)).Perm
      ((collectVideos batches).map (fun v => v.video_index)) :=
    (List.perm_insertionSort leIdx (collectVideos batches)).map _
  have hslen : ((collectVideos batches).insertionSort leIdx).length =
      (collectVideos batches).length :=
    List.length_insertionSort leIdx (collectVideos batches)
  simp only [mergeAnalyze]
  by_cases hd : 0 < (((collectVideos batches).insertionSort leIdx).map
      (fun v => v.video_index)).length -
      ((((collectVideos batches).insertionSort leIdx).map
        (fun v => v.video_index)).dedup).length
  · simp only [gt_iff_lt, hd, if_true]
    refine ⟨dedupByIndex_idx_nodup _ [], ?_, dedupByIndex_sublist _ [],
      fun v hv => dedupByIndex_first _ [] v hv, ?_, by decide⟩
    · intro i
      rw [dedupByIndex_mem_idx]
      simp only [List.not_mem_nil, not_false_iff, and_true]
      exact hperm.mem_iff
    · rw [dedupByIndex_length, ← collectVideos_length batches, ← hslen]
      simp
  · simp only [gt_iff_lt, hd, if_false]
    have hnd : (((collectVideos batches).insertionSort leIdx).map
        (fun v => v.video_index)).Nodup := idx_nodup_of_no_duplicates hd
    refine ⟨hnd, fun i => hperm.mem_iff, List.Sublist.refl _,
      find?_self_of_idx_nodup _ hnd, ?_, by decide⟩
    have hz : (((collectVideos batches).insertionSort leIdx).map
        (fun v => v.video_index)).length -
        ((((collectVideos batches).insertionSort leIdx).map
          (fun v => v.video_index)).dedup).length = 0 := by omega
    rw [hz, ← collectVideos_length batches, ← hslen]
    simp

/-- Closed instantiation of `C3_merge_dedups_by_index` at the batch sources
`[[a, X], [X]]`, whose collected indices `[0, 2, 2]` collide, so the dedup
branch runs and drops one record. -/
theorem C3_merge_dedups_by_index_witness :
    ((mergeAnalyze 2 (collectVideos [[{ video_id := "a" }, { video_id := "X" }],
        [{ video_id := "X" }]])).videos.map (fun v => v.video_index)).Nodup ∧
    (∀ i, i ∈ (mergeAnalyze 2 (collectVideos [[{ video_id := "a" }, { video_id := "X" }],
        [{ video_id := "X" }]])).videos.map (fun v => v.video_index) ↔
      i ∈ (collectVideos [[{ video_id := "a" }, { video_id := "X" }],
        [{ video_id := "X" }]]).map (fun v => v.video_index)) ∧
    (mergeAnalyze 2 (collectVideos [[{ video_id := "a" }, { video_id := "X" }],
        [{ video_id := "X" }]])).videos.Sublist
      ((collectVideos [[{ video_id := "a" }, { video_id := "X" }],
        [{ video_id := "X" }]]).insertionSort leIdx) ∧
    (∀ v ∈ (mergeAnalyze 2 (collectVideos [[{ video_id := "a" }, { video_id := "X" }],
        [{ video_id := "X" }]])).videos,
      ((collectVideos [[{ video_id := "a" }, { video_id := "X" }],
        [{ video_id := "X" }]]).insertionSort leIdx).find?
        (fun w => w.video_index == v.video_index) = some v) ∧
    (mergeAnalyze 2 (collectVideos [[{ video_id := "a" }, { video_id := "X" }],
        [{ video_id := "X" }]])).merge_metadata.duplicates_removed =
      ([[{ video_id := "a" }, { video_id := "X" }],
        [{ video_id := "X" }]] : List (List RawVideo)).flatten.length -
        (mergeAnalyze 2 (collectVideos [[{ video_id := "a" }, { video_id := "X" }],
          [{ video_id := "X" }]])).videos.length ∧
    (merge_batch_files [[{ video_id := "X" }], [{ video_id := "X" }]]).map
        (fun m => (m.videos.countP (fun v => v.video_id == "X"),
          m.merge_metadata.duplicates_removed)) = some (2, 0) :=
  C3_merge_dedups_by_index [[{ video_id := "a" }, { video_id := "X" }],
    [{ video_id := "X" }]]
    (mergeAnalyze 2 (collectVideos [[{ video_id := "a" }, { video_id := "X" }],
      [{ video_id := "X" }]])) rfl

/-- C4 fails on the code: on merged positions `{0,1,3,4}` the analysis does
report the gap list `[2]`, but `next_resume_index` is `max + 1 = 5`, never
the first gap `2` as the claim requires. -/
theorem C4_counterexample :
    (mergeAnalyze 1 [⟨"a", 0⟩, ⟨"b", 1⟩, ⟨"c", 3⟩, ⟨"d", 4⟩]).merge_metadata.missing_indices = [2] ∧
    (mergeAnalyze 1 [⟨"a", 0⟩, ⟨"b", 1⟩, ⟨"c", 3⟩, ⟨"d", 4⟩]).merge_metadata.next_resume_index = 5 ∧
    (mergeAnalyze 1 [⟨"a", 0⟩, ⟨"b", 1⟩, ⟨"c", 3⟩, ⟨"d", 4⟩]).merge_metadata.next_resume_index ≠ 2 := by
  decide

/-- C4 amended: the metadata summary reports the missing-index list as the
ascending enumeration of `{min..max}` minus the covered positions, and
`next_resume_index = max + 1` always, regardless of whether a gap exists
(never the first gap).  Merged positions `{0,1,3,4}` therefore report
`gaps = [2]` and `next_resume_index = 5`. -/
theorem C4_merge_gap_metadata (src : Nat) (vs : List MVideo) (h : vs ≠ []) :
    (mergeAnalyze src vs).merge_metadata.next_resume_index =
      maxNatList (vs.map (fun v => v.video_index)) + 1 ∧
    (∀ i, i ∈ (mergeAnalyze src vs).merge_metadata.missing_indices ↔
      (minNatList (vs.map (fun v => v.video_index)) ≤ i ∧
        i ≤ maxNatList (vs.map (fun v => v.video_index)) ∧
        i ∉ vs.map (fun v => v.video_index))) ∧
    (mergeAnalyze src vs).merge_metadata.missing_indices.Pairwise (· < ·) := by
  have hperm : (vs.insertionSort leIdx).Perm vs := List.perm_insertionSort leIdx vs
  have hpermidx : ((vs.insertionSort leIdx).map (fun v => v.video_index)).Perm
      (vs.map (fun v => v.video_index)) := hperm.map _
  have hvne : vs.map (fun v => v.video_index) ≠ [] := by
    intro hc; exact h (List.map_eq_nil_iff.mp hc)
  have hneidx : (vs.insertionSort leIdx).map (fun v => v.video_index) ≠ [] := by
    intro hc
    rw [hc] at hpermidx
    exact hvne hpermidx.symm.eq_nil
  have imin_eq : minNatList ((vs.insertionSort leIdx).map (fun v => v.video_index)) =
      minNatList (vs.map (fun v => v.video_index)) :=
    minNatList_perm hpermidx hneidx
  have imax_eq : maxNatList ((vs.insertionSort leIdx).map (fun v => v.video_index)) =
      maxNatList (vs.map (fun v => v.video_index)) :=
    maxNatList_perm hpermidx hneidx
  have hmm : minNatList (vs.map (fun v => v.video_index)) ≤
      maxNatList (vs.map (fun v => v.video_index)) := minNatList_le_maxNatList hvne
  refine ⟨?_, ?_, ?_⟩
  · simp only [mergeAnalyze]
    rw [imax_eq]
  · intro i
    simp only [mergeAnalyze, List.mem_filter, List.mem_range'_1, Bool.not_eq_true',
      decide_eq_false_iff_not, List.mem_dedup, hpermidx.mem_iff, imin_eq, imax_eq]
    constructor
    · rintro ⟨⟨h1, h2⟩, h3⟩
      exact ⟨h1, by omega, h3⟩
    · rintro ⟨h1, h2, h3⟩
      exact ⟨⟨h1, by omega⟩, h3⟩
  · simp only [mergeAnalyze]
    exact List.Pairwise.sublist (List.filter_sublist _) (List.pairwise_lt_range' _ _)

/-- Closed instantiation of `C4_merge_gap_metadata` at the position multiset
`{0,1,3,4}`. -/
theorem C4_merge_gap_metadata_witness :
    (mergeAnalyze 1 [⟨"a", 0⟩, ⟨"b", 1⟩, ⟨"c", 3⟩, ⟨"d", 4⟩]).merge_metadata.next_resume_index =
      maxNatList (([⟨"a", 0⟩, ⟨"b", 1⟩, ⟨"c", 3⟩, ⟨"d", 4⟩] : List MVideo).map
        (fun v => v.video_index)) + 1 ∧
    (∀ i, i ∈ (mergeAnalyze 1 [⟨"a", 0⟩, ⟨"b", 1⟩, ⟨"c", 3⟩, ⟨"d", 4⟩]).merge_metadata.missing_indices ↔
      (minNatList (([⟨"a", 0⟩, ⟨"b", 1⟩, ⟨"c", 3⟩, ⟨"d", 4⟩] : List MVideo).map
          (fun v => v.video_index)) ≤ i ∧
        i ≤ maxNatList (([⟨"a", 0⟩, ⟨"b", 1⟩, ⟨"c", 3⟩, ⟨"d", 4⟩] : List MVideo).map
          (fun v => v.video_index)) ∧
        i ∉ ([⟨"a", 0⟩, ⟨"b", 1⟩, ⟨"c", 3⟩, ⟨"d", 4⟩] : List MVideo).map
          (fun v => v.video_index))) ∧
    (mergeAnalyze 1 [⟨"a", 0⟩, ⟨"b", 1⟩, ⟨"c", 3⟩, ⟨"d", 4⟩]).merge_metadata.missing_indices.Pairwise
      (· < ·) :=
  C4_merge_gap_metadata 1 [⟨"a", 0⟩, ⟨"b", 1⟩, ⟨"c", 3⟩, ⟨"d", 4⟩] (by decide)

/- ===== Human-like batch processor:
   scripts/transcript_extractor_human_batch.py ===== -/

/-- Catalog entry handed to `process_batch`; only the fields the batch loop
reads (`video_id`, `title`) are modelled. -/
structure HBVideo where
  video_id : String
  title : String
deriving DecidableEq

/-- Per-video result dict returned by
`HumanLikeBatchExtractor.get_transcript`, restricted to the fields
`process_batch` inspects. -/
structure TranscriptOutcome where
  video_id : String
  transcript_available : Bool
  error : Option String
deriving DecidableEq

/-- Entry appended to `results` for each video
(transcript_extractor_human_batch.py lines 319-327); the `processed_at`
wall-clock timestamp is omitted. -/
structure EnhancedVideo where
  video : HBVideo
  transcript_attempted : Bool
  transcript_result : TranscriptOutcome
  batch_number : Nat
deriving DecidableEq

/-- Observable remote/file-system effects of one `process_batch` run, in
program order. -/
inductive BatchEvent where
  | attempt (video_id : String)
  | writeBatchFile (file : String)
deriving DecidableEq

/-- Batch structure written to the batch output file
(transcript_extractor_human_batch.py lines 343-353); the float
`success_rate`, the `proxy_rotations` counter and the completion timestamp
are omitted. -/
structure BatchData where
  batch_number : Nat
  video_count : Nat
  success_count : Nat
  videos : List EnhancedVideo
deriving DecidableEq

/-- Body of the `for i, video in enumerate(videos)` loop of `process_batch`
(transcript_extractor_human_batch.py lines 309-335): fetch the transcript,
append the enhanced record unconditionally, bump the success counter when a
transcript was available, and log the attempt. -/
def processBatchStep (getTranscript : String → TranscriptOutcome)
    (batch_number : Nat) (acc : List EnhancedVideo × Nat × List BatchEvent)
    (v : HBVideo) : List EnhancedVideo × Nat × List BatchEvent :=
  let tr := getTranscript v.video_id
  (acc.1 ++ [{ video := v, transcript_attempted := true,
               transcript_result := tr, batch_number := batch_number }],
   acc.2.1 + (if tr.transcript_available then 1 else 0),
   acc.2.2 ++ [BatchEvent.attempt v.video_id])

/-- `HumanLikeBatchExtractor.process_batch`
(transcript_extractor_human_batch.py lines 295-361).  `getTranscript`
abstracts the per-item retrieval `self.get_transcript` (a separate method
with its own retry loop).  The event list records, in program order, each
attempted item and the single write of the batch output file, which the
source performs only after the loop over all items has finished. -/
def process_batch (getTranscript : String → TranscriptOutcome)
    (videos : List HBVideo) (batch_number : Nat) (output_file : String) :
    BatchData × List BatchEvent :=
  let r := videos.foldl (processBatchStep getTranscript batch_number) ([], 0, [])
  ({ batch_number := batch_number, video_count := videos.length,
     success_count := r.2.1, videos := r.1 },
   r.2.2 ++ [BatchEvent.writeBatchFile output_file])

theorem processBatch_foldl_spec (f : String → TranscriptOutcome) (bn : Nat) :
    ∀ (videos : List HBVideo) (acc : List EnhancedVideo × Nat × List BatchEvent),
      videos.foldl (processBatchStep f bn) acc =
        (acc.1 ++ videos.map (fun v =>
            { video := v, transcript_attempted := true,
              transcript_result := f v.video_id, batch_number := bn }),
         acc.2.1 + videos.countP (fun v => (f v.video_id).transcript_available),
         acc.2.2 ++ videos.map (fun v => BatchEvent.attempt v.video_id)) := by
  intro videos
  induction videos with
  | nil => intro acc; simp
  | cons v vs ih =>
      intro acc
      rw [List.foldl_cons, ih (processBatchStep f bn acc v)]
      simp only [processBatchStep, Prod.mk.injEq, List.map_cons, List.countP_cons]
      refine ⟨by simp, ?_, by simp⟩
      split_ifs <;> omega

/-- C6: for every list of items, `process_batch` attempts every item in
order (never aborting early on an individual failure), produces exactly one
outcome per item in the same order as the items, and emits the single write
of the batch file only after all attempt events, so a partial batch is
never persisted. -/
theorem C6_process_batch_attempts_all (f : String → TranscriptOutcome)
    (videos : List HBVideo) (bn : Nat) (out : String) :
    (process_batch f videos bn out).1.videos.map (fun e => e.video) = videos ∧
    (process_batch f videos bn out).1.videos.length = videos.length ∧
    (process_batch f videos bn out).1.videos.map (fun e => e.transcript_result) =
      videos.map (fun v => f v.video_id) ∧
    (process_batch f videos bn out).1.success_count =
      videos.countP (fun v => (f v.video_id).transcript_available) ∧
    (process_batch f videos bn out).2 =
      videos.map (fun v => BatchEvent.attempt v.video_id) ++
        [BatchEvent.writeBatchFile out] := by
  simp only [process_batch, processBatch_foldl_spec]
  refine ⟨?_, ?_, ?_, ?_, ?_⟩
  · have h : videos.map ((fun e : EnhancedVideo => e.video) ∘ fun v =>
        ({ video := v, transcript_attempted := true,
           transcript_result := f v.video_id, batch_number := bn } : EnhancedVideo)) =
        videos.map (fun v => v) := rfl
    simp [List.map_map, h]
  · simp
  · simp [List.map_map]
  · simp
  · simp

/- ===== VPN batch orchestrator: scripts/vpn_batch_orchestrator.py ===== -/

/-- Outcome of one `run_batch_script` invocation: the subprocess return
code and the count of "Successfully processed video" lines seen in its
output. -/
structure BatchRunResult where
  return_code : Int
  success_count : Nat
deriving DecidableEq

/-- Success test `return_code == 0 and success_count > 0`
(vpn_batch_orchestrator.py line 272). -/
def batchRunSuccess (r : BatchRunResult) : Bool :=
  r.return_code == 0 && decide (0 < r.success_count)

/-- Orchestrator state mutated by `run_automated_batches`. -/
structure OrchState where
  processed_videos : Nat
  current_location : Option String
  locations_used : List String
deriving DecidableEq

/-- Starting index of the batch launched by a loop iteration
(vpn_batch_orchestrator.py line 289: `batch_start_index =
self.processed_videos`). -/
def nextBatchStartIndex (st : OrchState) : Nat := st.processed_videos

/-- One iteration of the `while` loop of `run_automated_batches`
(vpn_batch_orchestrator.py lines 288-326), given the batch outcome and the
location chosen by `switch_vpn_location` (rotation success is assumed; on
rotation failure the source returns from the whole function). -/
def orchStep (st : OrchState) (target_end_index videos_per_batch : Nat)
    (result : BatchRunResult) (newLocation : String) : OrchState :=
  let batch_size := min videos_per_batch (target_end_index - st.processed_videos)
  if batchRunSuccess result then
    let st' := { st with processed_videos := st.processed_videos + batch_size }
    if st'.processed_videos < target_end_index then
      { st' with current_location := some newLocation,
                 locations_used := st'.locations_used ++ [newLocation] }
    else st'
  else
    { st with current_location := some newLocation,
              locations_used := st.locations_used ++ [newLocation] }

/-- Oracle modelling a `get_transcript` call that finds no transcript for
any video (the failure dict of transcript_extractor_human_batch.py lines
281-285). -/
def failOracle : String → TranscriptOutcome := fun v =>
  { video_id := v, transcript_available := false, error := some "no transcript" }

/-- C5 fails on the code: a batch run with zero successes is still
persisted.  `process_batch` writes the batch file unconditionally after its
loop, even when `success_count = 0`: a single failing video yields a
written batch file with zero successes. -/
theorem C5_counterexample :
    (process_batch failOracle [{ video_id := "dQw4w9WgXcQ", title := "t" }]
        1 "berg_human_batch_1.json").1.success_count = 0 ∧
    BatchEvent.writeBatchFile "berg_human_batch_1.json" ∈
      (process_batch failOracle [{ video_id := "dQw4w9WgXcQ", title := "t" }]
        1 "berg_human_batch_1.json").2 := by
  decide

/-- C5 amended: on a zero-success batch run the orchestrator does retry the
same starting index after rotating identity — its `processed_videos`
counter is unchanged, so the next iteration's `batch_start_index` is the
same, and the rotation records the new location — but the batch file is
still persisted: `process_batch` emits its write event regardless of the
success count (and the subprocess `main` then appends every outcome to the
database). -/
theorem C5_zero_success_retries_same_index (st : OrchState)
    (tei vpb : Nat) (r : BatchRunResult) (loc : String)
    (f : String → TranscriptOutcome) (videos : List HBVideo) (bn : Nat)
    (out : String) (h : r.success_count = 0) :
    (orchStep st tei vpb r loc).processed_videos = st.processed_videos ∧
    nextBatchStartIndex (orchStep st tei vpb r loc) = nextBatchStartIndex st ∧
    (orchStep st tei vpb r loc).locations_used = st.locations_used ++ [loc] ∧
    (orchStep st tei vpb r loc).current_location = some loc ∧
    BatchEvent.writeBatchFile out ∈ (process_batch f videos bn out).2 := by
  have hfail : batchRunSuccess r = false := by
    simp [batchRunSuccess, h]
  refine ⟨?_, ?_, ?_, ?_, ?_⟩
  · simp [orchStep, hfail]
  · simp [orchStep, nextBatchStartIndex, hfail]
  · simp [orchStep, hfail]
  · simp [orchStep, hfail]
  · simp [process_batch]

/-- Closed instantiation of `C5_zero_success_retries_same_index` at a
concrete zero-success batch outcome. -/
theorem C5_zero_success_retries_same_index_witness :
    (orchStep ⟨40, some "boston-us", ["boston-us"]⟩ 60 10 ⟨0, 0⟩ "miami-us").processed_videos =
      (⟨40, some "boston-us", ["boston-us"]⟩ : OrchState).processed_videos ∧
    nextBatchStartIndex (orchStep ⟨40, some "boston-us", ["boston-us"]⟩ 60 10 ⟨0, 0⟩ "miami-us") =
      nextBatchStartIndex ⟨40, some "boston-us", ["boston-us"]⟩ ∧
    (orchStep ⟨40, some "boston-us", ["boston-us"]⟩ 60 10 ⟨0, 0⟩ "miami-us").locations_used =
      (⟨40, some "boston-us", ["boston-us"]⟩ : OrchState).locations_used ++ ["miami-us"] ∧
    (orchStep ⟨40, some "boston-us", ["boston-us"]⟩ 60 10 ⟨0, 0⟩ "miami-us").current_location =
      some "miami-us" ∧
    BatchEvent.writeBatchFile "out.json" ∈
      (process_batch failOracle [{ video_id := "dQw4w9WgXcQ", title := "t" }]
        1 "out.json").2 :=
  C5_zero_success_retries_same_index ⟨40, some "boston-us", ["boston-us"]⟩ 60 10
    ⟨0, 0⟩ "miami-us" failOracle
    [{ video_id := "dQw4w9WgXcQ", title := "t" }] 1 "out.json" rfl

/- ===== Rate-limited executor: scripts/transcript_extractor.py ===== -/

/-- Character class `[a-zA-Z0-9_-]` of the video-id pattern
(`Char.isAlphanum` is exactly ASCII `a-z`, `A-Z`, `0-9`). -/
def validChar (c : Char) : Bool := c.isAlphanum || c == '_' || c == '-'

/-- `TranscriptExtractor._validate_video_id` (transcript_extractor.py lines
90-93): `re.match(r'^[a-zA-Z0-9_-]{11}$', video_id)`.  Python's `$` also
matches just before one trailing newline, so eleven class characters
followed by `'\n'` are accepted as well. -/
def validate_video_id (s : String) : Bool :=
  (s.data.length == 11 && s.data.all validChar) ||
    (s.data.length == 12 && (s.data.take 11).all validChar &&
      s.data.drop 11 == ['\n'])

/-- Result dict returned by `TranscriptExtractor.get_transcript`
(transcript_extractor.py lines 269-331), restricted to the fields shared by
the failure and success branches. -/
structure GTResult where
  video_id : String
  transcript_available : Bool
  full_text : String
  word_count : Nat
  transcript_segments : Nat
  error : Option String
  error_type : Option String
deriving DecidableEq

/-- `TranscriptExtractor.get_transcript` (transcript_extractor.py lines
269-331).  `apiLoaded` models `self.transcript_api` being non-`None`;
`remote` abstracts the whole `try` block around the rate-limited fetch
(lines 286-331).  The second component counts entries into the remote-fetch
path: `0` means the function returned before any remote call was made. -/
def get_transcript (apiLoaded : Bool) (remote : String → GTResult)
    (video_id : String) : Option GTResult × Nat :=
  if !apiLoaded then (none, 0)
  else if !(validate_video_id video_id) then
    (some { video_id := video_id, transcript_available := false,
            full_text := "", word_count := 0, transcript_segments := 0,
            error := some "Invalid video ID format", error_type := none }, 0)
  else (remote video_id, 1)

/-- C7: for every video id that does not match the fixed-length pattern
`^[a-zA-Z0-9_-]{11}$`, `get_transcript` (with the API loaded) returns the
terminal failure dict (`transcript_available = False`,
`error = 'Invalid video ID format'`) immediately: the remote-call counter
is `0`, so no fetch and no retry happens, whatever the remote would do. -/
theorem C7_invalid_id_terminal (remote : String → GTResult) (video_id : String)
    (h : validate_video_id video_id = false) :
    get_transcript true remote video_id =
      (some { video_id := video_id, transcript_available := false,
              full_text := "", word_count := 0, transcript_segments := 0,
              error := some "Invalid video ID format", error_type := none }, 0) := by
  simp [get_transcript, h]

/-- Closed instantiation of `C7_invalid_id_terminal` at the eight-character
id "tooshort". -/
theorem C7_invalid_id_terminal_witness :
    validate_video_id "tooshort" = false ∧
    get_transcript true
        (fun v => { video_id := v, transcript_available := true,
                    full_text := "text", word_count := 1,
                    transcript_segments := 1, error := none, error_type := none })
        "tooshort" =
      (some { video_id := "tooshort", transcript_available := false,
              full_text := "", word_count := 0, transcript_segments := 0,
              error := some "Invalid video ID format", error_type := none }, 0) :=
  ⟨by decide,
    C7_invalid_id_terminal
      (fun v => { video_id := v, transcript_available := true,
                  full_text := "text", word_count := 1,
                  transcript_segments := 1, error := none, error_type := none })
      "tooshort" (by decide)⟩

/-- Rate limiting configuration `self.min_delay = 3.0`
(transcript_extractor.py line 46). -/
def min_delay : ℚ := 3

/-- Rate limiting configuration `self.max_delay = 15.0`
(transcript_extractor.py line 47). -/
def max_delay : ℚ := 15

/-- Rate limiting configuration `self.backoff_factor = 2.5`
(transcript_extractor.py line 48). -/
def backoff_factor : ℚ := 5 / 2

/-- Executor state touched by `_rate_limited_request` and
`_wait_for_rate_limit`: `request_count`, `last_request_time` and the
`ip_blocked` flag (transcript_extractor.py lines 44-50). -/
structure RateLimiterState where
  request_count : Nat
  last_request_time : ℚ
  ip_blocked : Bool
deriving DecidableEq

/-- Success path of `_rate_limited_request` (transcript_extractor.py lines
150-156): after `func(...)` returns, only `request_count` and
`last_request_time` are updated before the result is returned. -/
def rateLimitedRequestSuccess (s : RateLimiterState) (now : ℚ) :
    RateLimiterState :=
  { s with request_count := s.request_count + 1, last_request_time := now }

/-- Base delay chosen by `_wait_for_rate_limit` (transcript_extractor.py
lines 201-225), before jitter is added: the very conservative
`max_delay * 2` whenever `ip_blocked` is set, otherwise a tier picked from
the measured request frequency. -/
def waitBaseDelay (s : RateLimiterState) (current_time : ℚ) : ℚ :=
  if s.ip_blocked then max_delay * 2
  else if 0 < s.request_count then
    let time_window := max ((current_time - s.last_request_time) / 60) 1
    let requests_per_minute := (s.request_count : ℚ) / time_window
    if 10 < requests_per_minute then max_delay
    else if 5 < requests_per_minute then min_delay * 3
    else if 3 < requests_per_minute then min_delay * 2
    else min_delay
  else min_delay

/-- C8 fails on the code: the success path of `_rate_limited_request` never
clears `ip_blocked`.  From a blocked state, after a successful fetch the
flag is still set and the next pacing base delay is the maximum tier
`max_delay * 2 = 30`, although the same counters with the flag clear (one
request in the last minute) would select the minimum tier `3`. -/
theorem C8_counterexample :
    (rateLimitedRequestSuccess ⟨0, 0, true⟩ 100).ip_blocked = true ∧
    waitBaseDelay (rateLimitedRequestSuccess ⟨0, 0, true⟩ 100) 160 = 30 ∧
    waitBaseDelay ⟨1, 100, false⟩ 160 = 3 := by
  refine ⟨rfl, ?_, ?_⟩
  · norm_num [waitBaseDelay, rateLimitedRequestSuccess, max_delay]
  · norm_num [waitBaseDelay, min_delay]

/-- C8 amended: on a successful fetch the executor increments
`request_count` and records `last_request_time`, but does NOT reset the
blocked flag; once `ip_blocked` is set, every later pacing delay keeps
using the maximum tier `max_delay * 2` regardless of the measured request
frequency. -/
theorem C8_success_keeps_blocked_flag (s : RateLimiterState) (now t : ℚ)
    (h : s.ip_blocked = true) :
    (rateLimitedRequestSuccess s now).ip_blocked = s.ip_blocked ∧
    (rateLimitedRequestSuccess s now).request_count = s.request_count + 1 ∧
    (rateLimitedRequestSuccess s now).last_request_time = now ∧
    waitBaseDelay (rateLimitedRequestSuccess s now) t = max_delay * 2 := by
  refine ⟨rfl, rfl, rfl, ?_⟩
  simp [waitBaseDelay, rateLimitedRequestSuccess, h]

/-- Closed instantiation of `C8_success_keeps_blocked_flag` at a blocked
state. -/
theorem C8_success_keeps_blocked_flag_witness :
    (rateLimitedRequestSuccess ⟨0, 0, true⟩ 100).ip_blocked =
      (⟨0, 0, true⟩ : RateLimiterState).ip_blocked ∧
    (rateLimitedRequestSuccess ⟨0, 0, true⟩ 100).request_count =
      (⟨0, 0, true⟩ : RateLimiterState).request_count + 1 ∧
    (rateLimitedRequestSuccess ⟨0, 0, true⟩ 100).last_request_time = 100 ∧
    waitBaseDelay (rateLimitedRequestSuccess ⟨0, 0, true⟩ 100) 160 =
      max_delay * 2 :=
  C8_success_keeps_blocked_flag ⟨0, 0, true⟩ 100 160 rfl

/-- `TranscriptExtractor._calculate_backoff_delay` (transcript_extractor.py
lines 235-240), with the jitter draw `random.uniform(0.8, 1.2)` passed in
as an argument; the source's local variable `max_delay` (the capped delay)
shadows the configuration field of the same name. -/
def calculate_backoff_delay (attempt : Nat) (jitter : ℚ) : ℚ :=
  let base_delay := min_delay * backoff_factor ^ attempt
  let capped := min base_delay 30
  capped * jitter

/-- C9: for every attempt `k` and every jitter draw in `[0.8, 1.2]`, the
computed backoff delay equals
`min(baseDelay * backoffFactor ^ k, capDelay) * jitter` with `cap = 30`;
the capped pre-jitter delay is non-decreasing in the attempt number (hence
for any fixed jitter so is the computed delay), and no computed delay ever
exceeds `cap * 1.2 = 36`. -/
theorem C9_backoff_bounds (k : Nat) (j : ℚ) (h1 : 4/5 ≤ j) (h2 : j ≤ 6/5) :
    calculate_backoff_delay k j = min (min_delay * backoff_factor ^ k) 30 * j ∧
    min (min_delay * backoff_factor ^ k) 30 ≤
      min (min_delay * backoff_factor ^ (k + 1)) 30 ∧
    calculate_backoff_delay k j ≤ calculate_backoff_delay (k + 1) j ∧
    calculate_backoff_delay k j ≤ 30 * (6/5) := by
  have hfac : (1 : ℚ) ≤ backoff_factor := by norm_num [backoff_factor]
  have hpow : backoff_factor ^ k ≤ backoff_factor ^ (k + 1) :=
    pow_le_pow_right₀ hfac (Nat.le_succ k)
  have hbase : min_delay * backoff_factor ^ k ≤
      min_delay * backoff_factor ^ (k + 1) :=
    mul_le_mul_of_nonneg_left hpow (by norm_num [min_delay])
  have hmono : min (min_delay * backoff_factor ^ k) 30 ≤
      min (min_delay * backoff_factor ^ (k + 1)) 30 :=
    min_le_min hbase (le_refl 30)
  have hjpos : (0 : ℚ) ≤ j := le_trans (by norm_num) h1
  have hcapnn : (0 : ℚ) ≤ min (min_delay * backoff_factor ^ k) 30 := by
    apply le_min
    · simp only [min_delay, backoff_factor]
      positivity
    · norm_num
  refine ⟨rfl, hmono, ?_, ?_⟩
  · exact mul_le_mul_of_nonneg_right hmono hjpos
  · calc calculate_backoff_delay k j
        = min (min_delay * backoff_factor ^ k) 30 * j := rfl
      _ ≤ 30 * (6/5) :=
        mul_le_mul (min_le_right _ 30) h2 hjpos (by norm_num)

/-- Closed instantiation of `C9_backoff_bounds` at attempt `2` with unit
jitter. -/
theorem C9_backoff_bounds_witness :
    calculate_backoff_delay 2 1 = min (min_delay * backoff_factor ^ 2) 30 * 1 ∧
    min (min_delay * backoff_factor ^ 2) 30 ≤
      min (min_delay * backoff_factor ^ 3) 30 ∧
    calculate_backoff_delay 2 1 ≤ calculate_backoff_delay 3 1 ∧
    calculate_backoff_delay 2 1 ≤ 30 * (6/5) :=
  C9_backoff_bounds 2 1 (by norm_num) (by norm_num)
